import Mathlib

/-!
Verification of the statistical core of the `typo` command (typo.go).

The program tokenizes text into words, accumulates global digram and
trigram counts over every word (with the marker character sitting at
both word boundaries), scores each word by a leave-one-out
log-likelihood index per trigram combined by root-mean-square, and
prints the highest-scoring words.

Shallow embedding conventions:
  - a word is a `List Char` (Go iterates over runes; a rune is a code point);
  - the Go maps `diCounts`/`triCounts` are functions `Digram → Nat` and
    `Trigram → Nat` built by folding increments, exactly in the order the
    Go loops perform them;
  - Go float64 values are modelled as real numbers; an `Option ℝ` result
    uses `none` for a non-finite float (NaN or an infinity), which in this
    program can arise only from `math.Log` of a negative argument (NaN) or
    from the division `10 / 0` (+Inf);
  - `unicode.IsLower` and `strings.ToLower` are modelled on the ASCII
    fragment (identity on every other code point), which is faithful for
    all ASCII input; every concrete input below is ASCII.
-/

namespace Typo

/-- A digram is an ordered pair of code points (type digram [2]rune). -/
abbrev Digram := Char × Char

/-- A trigram is an ordered triple of code points (type trigram [3]rune). -/
abbrev Trigram := Char × Char × Char

/-- The boundary marker used by the Go code at both ends of a word. -/
def marker : Char := '.'

/-- Go utf8.DecodeRuneInString: first code point, or RuneError (U+FFFD) on
empty input. -/
def decodeFirst : List Char → Char
  | [] => '�'
  | c :: _ => c

/-- The loop of scanTrigrams: starting from a primed trigram, each step
shifts the window left by one and appends the next rune, emitting the
shifted window. Returns the emitted windows and the final window state. -/
def scanLoop (t : Trigram) : List Char → List Trigram × Trigram
  | [] => ([], t)
  | r :: rs =>
      let s : Trigram := (t.2.1, t.2.2, r)
      let p := scanLoop s rs
      (s :: p.1, p.2)

/-- The trigram emission sequence of scanTrigrams in typo.go: prime the
window with (marker, marker, firstRune), run the shift loop over the
remaining runes, then emit one final window shifted onto the marker.
For "once" this is .on, onc, nce, ce. exactly as the Go comment says. -/
def scanTrigrams (w : List Char) : List Trigram :=
  let p := scanLoop (marker, marker, decodeFirst w) (w.drop 1)
  p.1 ++ [(p.2.2.1, p.2.2.2, marker)]

/-- The loop of addDigrams: each step shifts the two-rune window and emits
it. Returns the emitted windows and the final window state. -/
def digramLoop (d : Digram) : List Char → List Digram × Digram
  | [] => ([], d)
  | r :: rs =>
      let s : Digram := (d.2, r)
      let p := digramLoop s rs
      (s :: p.1, p.2)

/-- The digram emission sequence of addDigrams in typo.go: start from
(marker, marker), shift over every rune of the word, then emit one final
window shifted onto the marker. For "once" this is .o, on, nc, ce, e. -/
def digramsList (w : List Char) : List Digram :=
  let p := digramLoop (marker, marker) w
  p.1 ++ [(p.2.2, marker)]

/-- One map increment, counts[k]++, on a count table modelled as a total
function that is 0 outside its support, as a Go map of ints is. -/
def bump {α : Type} [DecidableEq α] (m : α → Nat) (k : α) : α → Nat :=
  fun x => if x = k then m x + 1 else m x

/-- addDigrams word: increment the count of every emitted digram of the
word, in emission order. -/
def addDigrams (m : Digram → Nat) (w : List Char) : Digram → Nat :=
  (digramsList w).foldl bump m

/-- The trigram half of the accumulation pass: scanTrigrams(word, incTrigrams)
increments the count of every emitted trigram of the word. -/
def addTrigrams (m : Trigram → Nat) (w : List Char) : Trigram → Nat :=
  (scanTrigrams w).foldl bump m

/-- The digram table built by the first loop of stats(): every word of the
corpus is processed, in order, with no word skipped. -/
def buildDi (corpus : List (List Char)) : Digram → Nat :=
  corpus.foldl addDigrams (fun _ => 0)

/-- The trigram table built by the first loop of stats(): every word of the
corpus is processed, in order, with no word skipped. -/
def buildTri (corpus : List (List Char)) : Trigram → Nat :=
  corpus.foldl addTrigrams (fun _ => 0)

/-- Leave-one-out digram count nxy of triScore: diCounts[digram xy] - 1. -/
def nxy (di : Digram → Nat) (t : Trigram) : ℤ :=
  (di (t.1, t.2.1) : ℤ) - 1

/-- Leave-one-out digram count nyz of triScore: diCounts[digram yz] - 1. -/
def nyz (di : Digram → Nat) (t : Trigram) : ℤ :=
  (di (t.2.1, t.2.2) : ℤ) - 1

/-- Leave-one-out trigram count nxyz of triScore: triCounts[t] - 1. -/
def nxyz (tri : Trigram → Nat) (t : Trigram) : ℤ :=
  (tri t : ℤ) - 1

/-- triScore in typo.go. The zero test comes first, exactly as in the code;
if a leave-one-out count is negative (which would make math.Log return NaN
in Go) the result is `none`; otherwise the index is
0.5*(log nxy + log nyz) - log nxyz over the reals. -/
noncomputable def triScore (di : Digram → Nat) (tri : Trigram → Nat)
    (t : Trigram) : Option ℝ :=
  if nxy di t = 0 ∨ nyz di t = 0 ∨ nxyz tri t = 0 then some 0
  else if nxy di t < 0 ∨ nyz di t < 0 ∨ nxyz tri t < 0 then none
  else some (0.5 * (Real.log (nxy di t) + Real.log (nyz di t))
      - Real.log (nxyz tri t))

/-- The sum-of-squares accumulation inside score in typo.go: the closure
adds i*i for every trigram of the word; a NaN index (modelled `none`)
poisons the whole sum, as NaN propagates through float addition. -/
noncomputable def sumSquares (di : Digram → Nat) (tri : Trigram → Nat)
    (w : List Char) : Option ℝ :=
  (scanTrigrams w).foldl
    (fun acc t =>
      match acc, triScore di tri t with
      | some s, some i => some (s + i * i)
      | _, _ => none)
    (some 0)

/-- score in typo.go: 10 / sqrt(sumOfSquares / n) with n the number of
trigrams of the word. There is no zero guard in the code: when the sum of
squares is 0 the Go expression is 10 / 0 = +Inf, modelled here as `none`;
when the sum is positive the result is the finite real value. -/
noncomputable def score (di : Digram → Nat) (tri : Trigram → Nat)
    (w : List Char) : Option ℝ :=
  match sumSquares di tri w with
  | none => none
  | some s =>
      if s = 0 then none
      else some (10 / Real.sqrt (s / ((scanTrigrams w).length : ℝ)))

/-- The Word record of typo.go. The lower-cased form is recomputed by
`lowerOf` below rather than cached, which is value-equal to the cached
field. -/
structure Word where
  text : List Char
  file : String
  lineNum : ℤ
  byteNum : ℤ
  score : ℤ
  deriving DecidableEq

/-- unicode.IsLower restricted to ASCII: true exactly on a through z. -/
def isLowerChar (c : Char) : Bool := 'a' ≤ c && c ≤ 'z'

/-- onlyLower in typo.go: every code point of the word is lower case. -/
def onlyLower (s : List Char) : Bool := s.all isLowerChar

/-- strings.ToLower restricted to ASCII, applied per code point. -/
def toLowerChar (c : Char) : Char :=
  if 'A' ≤ c && c ≤ 'Z' then Char.ofNat (c.toNat + 32) else c

/-- The value of the Word.lower field as addWord computes it: the text
itself when it is entirely lower case, strings.ToLower of it otherwise. -/
def lowerOf (s : List Char) : List Char :=
  if onlyLower s then s else s.map toLowerChar

/-- The loop of repeats() in typo.go: carry the lower-cased form of the
previous word; report a word when its lower-cased form equals it. The
carried value is updated on every word, reported or not. -/
def repeatsAux (prev : List Char) : List Word → List Word
  | [] => []
  | w :: rest =>
      if lowerOf w.text = prev then w :: repeatsAux (lowerOf w.text) rest
      else repeatsAux (lowerOf w.text) rest

/-- repeats() in typo.go: the previous-word carrier starts as the empty
string. Returns the list of reported words in input order. -/
def repeatsList (ws : List Word) : List Word := repeatsAux [] ws

/-- Go string comparison a < b: lexicographic. On UTF-8 encoded strings
byte order coincides with code-point order, so the rune-wise comparison is
faithful. -/
def strLtB : List Char → List Char → Bool
  | [], [] => false
  | [], _ :: _ => true
  | _ :: _, [] => false
  | a :: as, b :: bs => if a = b then strLtB as bs else decide (a < b)

/-- The non-strict text order corresponding to the ByWord.Less method of
typo.go (Less is w1.text < w2.text): a is at most b when b is not below a. -/
def textLeB (a b : Word) : Bool := !strLtB b.text a.text

/-- The sort.Sort(ByWord(words)) pass of spell(): sort by original text,
ascending. The Less method is strict text comparison, so the sorted order
satisfies the non-strict relation. -/
def sortByText (ws : List Word) : List Word :=
  ws.mergeSort textLeB

/-- The uniq loop of spell(): drop a word equal to the previously kept
text, drop a word whose lower-cased form is a known word, keep the rest;
the carried text is updated only when a word is kept. -/
def dedupAux (known : List (List Char)) (prev : List Char) :
    List Word → List Word
  | [] => []
  | w :: rest =>
      if w.text = prev then dedupAux known prev rest
      else if known.contains (lowerOf w.text) then dedupAux known prev rest
      else w :: dedupAux known w.text rest

/-- The deduplicated word list of spell(): sort by text, then run the uniq
loop with the carried text primed to the one-space string, as in the code. -/
def uniqWords (known : List (List Char)) (ws : List Word) : List Word :=
  dedupAux known [' '] (sortByText ws)

/-- The non-strict score order corresponding to the ByScore.Less method of
typo.go (Less is w1.score > w2.score, sorting down): a is at most b in the
output order when the score of b does not exceed the score of a. -/
def scoreLeB (a b : Word) : Bool := decide (b.score ≤ a.score)

/-- The sort.Sort(ByScore(words)) pass of spell(): sort by score,
descending. -/
def sortByScore (ws : List Word) : List Word :=
  ws.mergeSort scoreLeB

/-- The print loop of spell(): walk the ranked list, stop at index nTypos,
stop at the first word whose score is below the threshold, print the rest.
Returns the list of printed words in print order. -/
def spellPrinted (known : List (List Char)) (nTypos threshold : ℤ)
    (ws : List Word) : List Word :=
  ((sortByScore (uniqWords known ws)).take nTypos.toNat).takeWhile
    (fun w => decide (threshold ≤ w.score))

/-- The scoring pass of stats() for one word: a word whose lower-cased
form is a known word is skipped (left unchanged), any other word has its
score field assigned. The integer value written by the Go code is
int(score(word.text)); it is abstracted here as a function of the text,
since the float-to-int conversion of a non-finite value is
implementation-defined in Go. -/
def statsOne (known : List (List Char)) (scoreOf : List Char → ℤ)
    (w : Word) : Word :=
  if known.contains (lowerOf w.text) then w
  else { w with score := scoreOf w.text }

/-- The scoring pass of stats() over the whole word list. -/
def statsWords (known : List (List Char)) (scoreOf : List Char → ℤ)
    (ws : List Word) : List Word :=
  ws.map (statsOne known scoreOf)

/-- Consecutive pairs of a list of code points: the reference description
of the digram sequence. -/
def windows2 : List Char → List Digram
  | a :: b :: rest => (a, b) :: windows2 (b :: rest)
  | _ => []

/-- Consecutive triples of a list of code points: the reference description
of the trigram sequence. -/
def windows3 : List Char → List Trigram
  | a :: b :: c :: rest => (a, b, c) :: windows3 (b :: c :: rest)
  | _ => []

/-- A word padded with one boundary marker on each side. -/
def padded (w : List Char) : List Char := marker :: (w ++ [marker])

end Typo


namespace Typo

/-- The scanTrigrams loop, followed by the final marker emission, produces
exactly the consecutive triples of the sequence that starts at the second
window slot and ends at the marker. -/
theorem scanLoop_spec : ∀ (rs : List Char) (x y z : Char),
    (scanLoop (x, y, z) rs).1 ++
      [((scanLoop (x, y, z) rs).2.2.1, (scanLoop (x, y, z) rs).2.2.2, marker)] =
      windows3 (y :: z :: (rs ++ [marker])) := by
  intro rs
  induction rs with
  | nil => intro x y z; simp [scanLoop, windows3]
  | cons r rs ih =>
      intro x y z
      simp only [scanLoop, List.cons_append]
      rw [show windows3 (y :: z :: r :: (rs ++ [marker])) =
        (y, z, r) :: windows3 (z :: r :: (rs ++ [marker])) from rfl]
      simpa using ih y z r

/-- For a nonempty word, the emitted trigram sequence is exactly the list
of consecutive triples of the word padded with one marker on each side. -/
theorem scanTrigrams_eq_windows3 (w : List Char) (h : w ≠ []) :
    scanTrigrams w = windows3 (padded w) := by
  match w, h with
  | c :: rest, _ =>
      have := scanLoop_spec rest marker marker c
      simpa [scanTrigrams, padded, decodeFirst] using this

/-- The emitted digram sequence is exactly the list of consecutive pairs
of the word padded with one marker on each side, for every word including
the empty one. -/
theorem digramsList_eq_windows2 (w : List Char) :
    digramsList w = windows2 (padded w) := by
  have base : ∀ (rs : List Char) (x y : Char),
      (digramLoop (x, y) rs).1 ++
        [((digramLoop (x, y) rs).2.2, marker)] =
        windows2 (y :: (rs ++ [marker])) := by
    intro rs
    induction rs with
    | nil => intro x y; simp [digramLoop, windows2]
    | cons r rs ih =>
        intro x y
        simp only [digramLoop, List.cons_append]
        rw [show windows2 (y :: r :: (rs ++ [marker])) =
          (y, r) :: windows2 (r :: (rs ++ [marker])) from rfl]
        simpa using ih y r
  simpa [digramsList, padded] using base w marker marker

theorem windows3_length : ∀ l : List Char, (windows3 l).length = l.length - 2
  | [] => rfl
  | [_] => rfl
  | [_, _] => rfl
  | a :: b :: c :: rest => by
      have := windows3_length (b :: c :: rest)
      simp only [windows3, List.length_cons] at *
      omega

theorem windows2_length : ∀ l : List Char, (windows2 l).length = l.length - 1
  | [] => rfl
  | [_] => rfl
  | a :: b :: rest => by
      have := windows2_length (b :: rest)
      simp only [windows2, List.length_cons] at *
      omega

/-- A nonempty word of length L emits exactly L trigrams. -/
theorem scanTrigrams_length (w : List Char) (h : w ≠ []) :
    (scanTrigrams w).length = w.length := by
  rw [scanTrigrams_eq_windows3 w h, windows3_length]
  simp [padded]

/-- A word of length L emits exactly L + 1 digrams. -/
theorem digramsList_length (w : List Char) :
    (digramsList w).length = w.length + 1 := by
  rw [digramsList_eq_windows2, windows2_length]
  simp [padded]

/-- Folding increments over a digram list adds the multiplicity of a key
to its old count. -/
theorem foldl_bump_apply_di :
    ∀ (l : List Digram) (m : Digram → Nat) (k : Digram),
      (l.foldl bump m) k = m k + l.count k := by
  intro l
  induction l with
  | nil => intro m k; simp
  | cons a l ih =>
      intro m k
      simp only [List.foldl_cons, List.count_cons, ih (bump m a) k, bump]
      by_cases h : k = a
      · subst h; simp; omega
      · simp [h, Ne.symm h]

/-- Folding increments over a trigram list adds the multiplicity of a key
to its old count. -/
theorem foldl_bump_apply_tri :
    ∀ (l : List Trigram) (m : Trigram → Nat) (k : Trigram),
      (l.foldl bump m) k = m k + l.count k := by
  intro l
  induction l with
  | nil => intro m k; simp
  | cons a l ih =>
      intro m k
      simp only [List.foldl_cons, List.count_cons, ih (bump m a) k, bump]
      by_cases h : k = a
      · subst h; simp; omega
      · simp [h, Ne.symm h]

/-- The digram table of a corpus counts, for each digram, the total number
of emissions of that digram over all words of the corpus: no word is
skipped and nothing else is counted. -/
theorem buildDi_apply (corpus : List (List Char)) (d : Digram) :
    buildDi corpus d = (corpus.map (fun w => (digramsList w).count d)).sum := by
  have base : ∀ (cs : List (List Char)) (m : Digram → Nat),
      (cs.foldl addDigrams m) d
        = m d + (cs.map (fun w => (digramsList w).count d)).sum := by
    intro cs
    induction cs with
    | nil => intro m; simp
    | cons w cs ih =>
        intro m
        rw [List.foldl_cons, ih (addDigrams m w), List.map_cons, List.sum_cons]
        have h2 : addDigrams m w d = m d + (digramsList w).count d :=
          foldl_bump_apply_di (digramsList w) m d
        rw [h2]
        omega
  simpa using base corpus (fun _ => 0)

/-- The trigram table of a corpus counts, for each trigram, the total
number of emissions of that trigram over all words of the corpus. -/
theorem buildTri_apply (corpus : List (List Char)) (t : Trigram) :
    buildTri corpus t = (corpus.map (fun w => (scanTrigrams w).count t)).sum := by
  have base : ∀ (cs : List (List Char)) (m : Trigram → Nat),
      (cs.foldl addTrigrams m) t
        = m t + (cs.map (fun w => (scanTrigrams w).count t)).sum := by
    intro cs
    induction cs with
    | nil => intro m; simp
    | cons w cs ih =>
        intro m
        rw [List.foldl_cons, ih (addTrigrams m w), List.map_cons, List.sum_cons]
        have h2 : addTrigrams m w t = m t + (scanTrigrams w).count t :=
          foldl_bump_apply_tri (scanTrigrams w) m t
        rw [h2]
        omega
  simpa using base corpus (fun _ => 0)

/-- Any digram emitted by a corpus word has a positive global count. -/
theorem buildDi_pos (corpus : List (List Char)) (w : List Char) (d : Digram)
    (hw : w ∈ corpus) (hd : d ∈ digramsList w) : 1 ≤ buildDi corpus d := by
  rw [buildDi_apply]
  have hcount : 1 ≤ (digramsList w).count d := List.count_pos_iff.mpr hd
  have hmem : (digramsList w).count d ∈
      corpus.map (fun w => (digramsList w).count d) :=
    List.mem_map_of_mem _ hw
  exact le_trans hcount (List.single_le_sum (fun x _ => Nat.zero_le x) _ hmem)

/-- Any trigram emitted by a corpus word has a positive global count. -/
theorem buildTri_pos (corpus : List (List Char)) (w : List Char) (t : Trigram)
    (hw : w ∈ corpus) (ht : t ∈ scanTrigrams w) : 1 ≤ buildTri corpus t := by
  rw [buildTri_apply]
  have hcount : 1 ≤ (scanTrigrams w).count t := List.count_pos_iff.mpr ht
  have hmem : (scanTrigrams w).count t ∈
      corpus.map (fun w => (scanTrigrams w).count t) :=
    List.mem_map_of_mem _ hw
  exact le_trans hcount (List.single_le_sum (fun x _ => Nat.zero_le x) _ hmem)

end Typo

namespace Typo

/-- Both digram projections of any consecutive triple of a sequence are
consecutive pairs of the same sequence. -/
theorem mem_windows2_of_mem_windows3 :
    ∀ (l : List Char) (a b c : Char), (a, b, c) ∈ windows3 l →
      (a, b) ∈ windows2 l ∧ (b, c) ∈ windows2 l
  | [], a, b, c, h => by simp [windows3] at h
  | [_], a, b, c, h => by simp [windows3] at h
  | [_, _], a, b, c, h => by simp [windows3] at h
  | x :: y :: z :: rest, a, b, c, h => by
      rw [show windows3 (x :: y :: z :: rest)
          = (x, y, z) :: windows3 (y :: z :: rest) from rfl] at h
      rw [show windows2 (x :: y :: z :: rest)
          = (x, y) :: windows2 (y :: z :: rest) from rfl]
      rcases List.mem_cons.mp h with heq | htail
      · injection heq with e1 e2
        injection e2 with e2 e3
        subst e1
        subst e2
        subst e3
        constructor
        · exact List.mem_cons_self ..
        · apply List.mem_cons_of_mem
          rw [show windows2 (b :: c :: rest)
              = (b, c) :: windows2 (c :: rest) from rfl]
          exact List.mem_cons_self ..
      · have ihr := mem_windows2_of_mem_windows3 (y :: z :: rest) a b c htail
        exact ⟨List.mem_cons_of_mem _ ihr.1, List.mem_cons_of_mem _ ihr.2⟩

/-- The lower-cased form of a nonempty word is nonempty. -/
theorem lowerOf_ne_nil (s : List Char) (h : s ≠ []) : lowerOf s ≠ [] := by
  unfold lowerOf
  by_cases hc : onlyLower s
  · simpa [hc]
  · simp [hc, h]

theorem strLtB_irrefl : ∀ s : List Char, strLtB s s = false
  | [] => rfl
  | a :: as => by simp [strLtB, strLtB_irrefl as]

theorem strLtB_trans :
    ∀ a b c : List Char, strLtB a b = true → strLtB b c = true →
      strLtB a c = true := by
  intro a
  induction a with
  | nil =>
      intro b c hab hbc
      cases b with
      | nil => simp [strLtB] at hab
      | cons y ys =>
          cases c with
          | nil => simp [strLtB] at hbc
          | cons z zs => rfl
  | cons x xs ih =>
      intro b c hab hbc
      cases b with
      | nil => simp [strLtB] at hab
      | cons y ys =>
          cases c with
          | nil => simp [strLtB] at hbc
          | cons z zs =>
              simp only [strLtB] at hab hbc ⊢
              by_cases hxy : x = y
              · subst hxy
                rw [if_pos rfl] at hab
                by_cases hyz : x = z
                · subst hyz
                  rw [if_pos rfl] at hbc
                  rw [if_pos rfl]
                  exact ih ys zs hab hbc
                · rw [if_neg hyz] at hbc
                  rw [if_neg hyz]
                  exact hbc
              · rw [if_neg hxy] at hab
                have hlt1 : x < y := of_decide_eq_true hab
                by_cases hyz : y = z
                · have hxz : x ≠ z := hyz ▸ hxy
                  rw [if_neg hxz]
                  exact decide_eq_true (hyz ▸ hlt1)
                · rw [if_neg hyz] at hbc
                  have hlt2 : y < z := of_decide_eq_true hbc
                  have hlt : x < z := lt_trans hlt1 hlt2
                  rw [if_neg (ne_of_lt hlt)]
                  exact decide_eq_true hlt

theorem strLtB_total_eq :
    ∀ a b : List Char, strLtB a b = false → strLtB b a = false → a = b := by
  intro a
  induction a with
  | nil =>
      intro b hab _
      cases b with
      | nil => rfl
      | cons y ys => simp [strLtB] at hab
  | cons x xs ih =>
      intro b hab hba
      cases b with
      | nil => simp [strLtB] at hba
      | cons y ys =>
          simp only [strLtB] at hab hba
          by_cases hxy : x = y
          · subst hxy
            rw [if_pos rfl] at hab hba
            rw [ih ys hab hba]
          · rw [if_neg hxy] at hab
            rw [if_neg (Ne.symm hxy)] at hba
            have h1 : ¬x < y := of_decide_eq_false hab
            have h2 : ¬y < x := of_decide_eq_false hba
            exact absurd (le_antisymm (le_of_not_lt h2) (le_of_not_lt h1)) hxy

theorem strLtB_not_both (a b : List Char)
    (h1 : strLtB a b = true) (h2 : strLtB b a = true) : False := by
  have := strLtB_trans a b a h1 h2
  rw [strLtB_irrefl a] at this
  exact Bool.false_ne_true this

/-- When every trigram of the list has index zero, the sum-of-squares fold
leaves the accumulator unchanged. -/
theorem sumFold_all_zero (di : Digram → Nat) (tri : Trigram → Nat) :
    ∀ (l : List Trigram) (s : ℝ),
      (∀ t ∈ l, triScore di tri t = some 0) →
      (l.foldl
        (fun acc t =>
          match acc, triScore di tri t with
          | some s, some i => some (s + i * i)
          | _, _ => none)
        (some s)) = some s := by
  intro l
  induction l with
  | nil => intro s _; rfl
  | cons t l ih =>
      intro s h
      have ht : triScore di tri t = some 0 := h t (List.mem_cons_self ..)
      have hrest : ∀ u ∈ l, triScore di tri u = some 0 :=
        fun u hu => h u (List.mem_cons_of_mem _ hu)
      simp only [List.foldl_cons, ht]
      have : s + (0 : ℝ) * 0 = s := by ring
      rw [this]
      exact ih s hrest

/-- A word all of whose trigram indices are zero has sum of squares zero. -/
theorem sumSquares_all_zero (di : Digram → Nat) (tri : Trigram → Nat)
    (w : List Char) (h : ∀ t ∈ scanTrigrams w, triScore di tri t = some 0) :
    sumSquares di tri w = some 0 :=
  sumFold_all_zero di tri (scanTrigrams w) 0 h

/-- A word all of whose trigram indices are zero is scored 10 / sqrt 0,
the division by zero the Go code performs: the result is +Inf, not 0. -/
theorem score_none_of_all_zero (di : Digram → Nat) (tri : Trigram → Nat)
    (w : List Char) (h : ∀ t ∈ scanTrigrams w, triScore di tri t = some 0) :
    score di tri w = none := by
  unfold score
  rw [sumSquares_all_zero di tri w h]
  simp

end Typo

namespace Typo

theorem strLtB_false_trans (a b c : List Char)
    (h1 : strLtB b a = false) (h2 : strLtB c b = false) :
    strLtB c a = false := by
  cases hbc : strLtB b c with
  | true =>
      cases hca : strLtB c a with
      | false => rfl
      | true =>
          have hba := strLtB_trans b c a hbc hca
          rw [hba] at h1
          exact absurd h1 (by simp)
  | false =>
      have hbceq : b = c := strLtB_total_eq b c hbc h2
      exact hbceq ▸ h1

theorem textLeB_trans (a b c : Word)
    (h1 : textLeB a b = true) (h2 : textLeB b c = true) :
    textLeB a c = true := by
  unfold textLeB at h1 h2 ⊢
  rw [Bool.not_eq_true'] at h1 h2 ⊢
  exact strLtB_false_trans a.text b.text c.text h1 h2

theorem textLeB_total (a b : Word) : (textLeB a b || textLeB b a) = true := by
  unfold textLeB
  cases h1 : strLtB b.text a.text with
  | false => simp
  | true =>
      cases h2 : strLtB a.text b.text with
      | false => simp
      | true => exact (strLtB_not_both _ _ h2 h1).elim

theorem scoreLeB_trans (a b c : Word)
    (h1 : scoreLeB a b = true) (h2 : scoreLeB b c = true) :
    scoreLeB a c = true := by
  unfold scoreLeB at h1 h2 ⊢
  rw [decide_eq_true_eq] at h1 h2 ⊢
  omega

theorem scoreLeB_total (a b : Word) : (scoreLeB a b || scoreLeB b a) = true := by
  unfold scoreLeB
  rcases le_total a.score b.score with h | h <;> simp [h]

/-- The text-sorted list is pairwise ordered: no later word has a text
strictly below an earlier one. -/
theorem sortByText_sorted (ws : List Word) :
    (sortByText ws).Pairwise (fun a b => strLtB b.text a.text = false) := by
  have h := List.sorted_mergeSort textLeB_trans textLeB_total ws
  refine h.imp ?_
  intro a b hab
  unfold textLeB at hab
  rwa [Bool.not_eq_true'] at hab

theorem sortByText_perm (ws : List Word) : (sortByText ws).Perm ws :=
  List.mergeSort_perm ws textLeB

/-- The score-sorted list is pairwise descending in score. -/
theorem sortByScore_sorted (ws : List Word) :
    (sortByScore ws).Pairwise (fun a b => b.score ≤ a.score) := by
  have h := List.sorted_mergeSort scoreLeB_trans scoreLeB_total ws
  refine h.imp ?_
  intro a b hab
  unfold scoreLeB at hab
  rwa [decide_eq_true_eq] at hab

theorem sortByScore_perm (ws : List Word) : (sortByScore ws).Perm ws :=
  List.mergeSort_perm ws scoreLeB

theorem dedupAux_skip_prev (known : List (List Char)) (prev : List Char)
    (w : Word) (rest : List Word) (h : w.text = prev) :
    dedupAux known prev (w :: rest) = dedupAux known prev rest := by
  unfold dedupAux
  rw [if_pos h]
  cases rest <;> rfl

theorem dedupAux_skip_known (known : List (List Char)) (prev : List Char)
    (w : Word) (rest : List Word) (h : w.text ≠ prev)
    (hk : known.contains (lowerOf w.text) = true) :
    dedupAux known prev (w :: rest) = dedupAux known prev rest := by
  unfold dedupAux
  rw [if_neg h, if_pos hk]
  cases rest <;> rfl

theorem dedupAux_keep (known : List (List Char)) (prev : List Char)
    (w : Word) (rest : List Word) (h : w.text ≠ prev)
    (hk : known.contains (lowerOf w.text) = false) :
    dedupAux known prev (w :: rest) = w :: dedupAux known w.text rest := by
  unfold dedupAux
  rw [if_neg h, if_neg (fun hc => Bool.false_ne_true (hk ▸ hc))]
  cases rest <;> rfl

/-- On a text-sorted input, the uniq loop of spell keeps words with
strictly increasing texts, all strictly above the primed text. -/
theorem dedupAux_strict (known : List (List Char)) :
    ∀ (ws : List Word) (prev : List Char),
      ws.Pairwise (fun a b => strLtB b.text a.text = false) →
      (∀ w ∈ ws, strLtB w.text prev = false) →
      (∀ u ∈ dedupAux known prev ws, strLtB prev u.text = true) ∧
      ((dedupAux known prev ws).map (fun w => w.text)).Pairwise
        (fun a b => strLtB a b = true) := by
  intro ws
  induction ws with
  | nil =>
      intro prev _ _
      exact ⟨fun u hu => absurd hu (by simp [dedupAux]), by simp [dedupAux]⟩
  | cons w rest ih =>
      intro prev hs hp
      have hw_rest := (List.pairwise_cons.mp hs).1
      have hsrest := (List.pairwise_cons.mp hs).2
      have hpw : strLtB w.text prev = false := hp w (List.mem_cons_self ..)
      by_cases heq : w.text = prev
      · rw [dedupAux_skip_prev known prev w rest heq]
        apply ih prev hsrest
        intro r hr
        have hrw := hw_rest r hr
        rwa [heq] at hrw
      · cases hk : known.contains (lowerOf w.text) with
        | true =>
          rw [dedupAux_skip_known known prev w rest heq hk]
          apply ih prev hsrest
          intro r hr
          exact strLtB_false_trans prev w.text r.text hpw (hw_rest r hr)
        | false =>
          rw [dedupAux_keep known prev w rest heq hk]
          have hprevw : strLtB prev w.text = true := by
            cases hx : strLtB prev w.text with
            | true => rfl
            | false => exact absurd (strLtB_total_eq w.text prev hpw hx) heq
          have ihres := ih w.text hsrest hw_rest
          constructor
          · intro u hu
            rcases List.mem_cons.mp hu with h | h
            · rw [h]
              exact hprevw
            · exact strLtB_trans prev w.text u.text hprevw (ihres.1 u h)
          · rw [List.map_cons]
            apply List.pairwise_cons.mpr
            refine ⟨?_, ihres.2⟩
            intro tx htx
            obtain ⟨u, hu, rfl⟩ := List.mem_map.mp htx
            exact ihres.1 u hu

/-- Every word kept by the uniq loop of spell has a lower-cased form that
is not a known word. -/
theorem dedupAux_not_known (known : List (List Char)) :
    ∀ (ws : List Word) (prev : List Char) (u : Word),
      u ∈ dedupAux known prev ws →
      known.contains (lowerOf u.text) = false := by
  intro ws
  induction ws with
  | nil => intro prev u hu; simp [dedupAux] at hu
  | cons w rest ih =>
      intro prev u hu
      by_cases heq : w.text = prev
      · rw [dedupAux_skip_prev known prev w rest heq] at hu
        exact ih prev u hu
      · cases hk : known.contains (lowerOf w.text) with
        | true =>
          rw [dedupAux_skip_known known prev w rest heq hk] at hu
          exact ih prev u hu
        | false =>
          rw [dedupAux_keep known prev w rest heq hk] at hu
          rcases List.mem_cons.mp hu with h | h
          · rw [h]
            exact hk
          · exact ih w.text u h

/-- Every word of the input whose lower-cased form is not known either has
the primed text or has a representative with the same text in the output
of the uniq loop. -/
theorem dedupAux_complete (known : List (List Char)) :
    ∀ (ws : List Word) (prev : List Char) (w : Word),
      w ∈ ws → known.contains (lowerOf w.text) = false →
      w.text = prev ∨ ∃ u ∈ dedupAux known prev ws, u.text = w.text := by
  intro ws
  induction ws with
  | nil => intro prev w hw; exact absurd hw (by simp)
  | cons v rest ih =>
      intro prev w hw hnk
      rcases List.mem_cons.mp hw with hewv | hwrest
      · subst hewv
        by_cases heq : w.text = prev
        · exact Or.inl heq
        · rw [dedupAux_keep known prev w rest heq hnk]
          exact Or.inr ⟨w, List.mem_cons_self .., rfl⟩
      · by_cases heq : v.text = prev
        · rw [dedupAux_skip_prev known prev v rest heq]
          exact ih prev w hwrest hnk
        · cases hk : known.contains (lowerOf v.text) with
          | true =>
            rw [dedupAux_skip_known known prev v rest heq hk]
            exact ih prev w hwrest hnk
          | false =>
            rw [dedupAux_keep known prev v rest heq hk]
            rcases ih v.text w hwrest hnk with hsame | ⟨u, hu, hut⟩
            · exact Or.inr ⟨v, List.mem_cons_self .., hsame.symm⟩
            · exact Or.inr ⟨u, List.mem_cons_of_mem _ hu, hut⟩

end Typo

namespace Typo

/-- The repeats loop reports exactly the words whose lower-cased form
matches the carried value coming in: the carried values are the primed
value followed by the lower-cased forms of the words themselves. -/
theorem repeatsAux_eq (ws : List Word) : ∀ prev : List Char,
    repeatsAux prev ws =
      ((prev :: ws.map (fun w => lowerOf w.text)).zip ws).filterMap
        (fun pc => if lowerOf pc.2.text = pc.1 then some pc.2 else none) := by
  induction ws with
  | nil => intro prev; simp [repeatsAux]
  | cons w rest ih =>
      intro prev
      simp only [repeatsAux, List.map_cons, List.zip_cons_cons,
        List.filterMap_cons, ih (lowerOf w.text)]
      by_cases h : lowerOf w.text = prev
      · simp [h]
      · simp [h]

/-- repeats() reports exactly those words whose lower-cased form equals
the lower-cased form of the immediately preceding word, provided no word
is empty (the tokenizer only emits words containing a letter). The first
word is never reported. -/
theorem repeats_characterization (ws : List Word)
    (h : ∀ w ∈ ws, w.text ≠ []) :
    repeatsList ws =
      ((ws.zip ws.tail).filterMap
        (fun pc => if lowerOf pc.2.text = lowerOf pc.1.text
          then some pc.2 else none)) := by
  cases ws with
  | nil => rfl
  | cons w rest =>
      rw [repeatsList, repeatsAux_eq]
      simp only [List.map_cons, List.zip_cons_cons, List.filterMap_cons]
      have hw : lowerOf w.text ≠ [] :=
        lowerOf_ne_nil w.text (h w (List.mem_cons_self ..))
      simp only [if_neg hw, List.tail_cons]
      rw [show (lowerOf w.text :: List.map (fun w => lowerOf w.text) rest)
          = List.map (fun w => lowerOf w.text) (w :: rest) from rfl]
      rw [List.zip_map_left, List.filterMap_map]
      rfl

end Typo

namespace Typo

theorem strLt_ne (a b : List Char) (h : strLtB a b = true) : a ≠ b := by
  intro heq
  rw [heq, strLtB_irrefl] at h
  exact Bool.false_ne_true h

/-- On a text-sorted input, the uniq loop of spell emits pairwise distinct
texts, whatever the primed text is. -/
theorem dedupAux_nodup (known : List (List Char)) :
    ∀ (ws : List Word) (prev : List Char),
      ws.Pairwise (fun a b => strLtB b.text a.text = false) →
      ((dedupAux known prev ws).map (fun w => w.text)).Pairwise
        (fun a b => strLtB a b = true) := by
  intro ws
  induction ws with
  | nil => intro prev _; simp [dedupAux]
  | cons w rest ih =>
      intro prev hs
      have hw_rest := (List.pairwise_cons.mp hs).1
      have hsrest := (List.pairwise_cons.mp hs).2
      by_cases heq : w.text = prev
      · rw [dedupAux_skip_prev known prev w rest heq]
        exact ih prev hsrest
      · cases hk : known.contains (lowerOf w.text) with
        | true =>
          rw [dedupAux_skip_known known prev w rest heq hk]
          exact ih prev hsrest
        | false =>
          rw [dedupAux_keep known prev w rest heq hk]
          have hres := dedupAux_strict known rest w.text hsrest hw_rest
          rw [List.map_cons]
          apply List.pairwise_cons.mpr
          refine ⟨?_, hres.2⟩
          intro tx htx
          obtain ⟨u, hu, rfl⟩ := List.mem_map.mp htx
          exact hres.1 u hu

/-- Every trigram emitted for a nonempty corpus word has both of its
digram projections and itself counted at least once by the accumulation
pass over that same word. -/
theorem tri_counts_pos (corpus : List (List Char)) (w : List Char)
    (t : Trigram) (hw : w ∈ corpus) (hne : w ≠ []) (ht : t ∈ scanTrigrams w) :
    1 ≤ buildDi corpus (t.1, t.2.1) ∧ 1 ≤ buildDi corpus (t.2.1, t.2.2) ∧
      1 ≤ buildTri corpus t := by
  obtain ⟨a, b, c⟩ := t
  have htw : (a, b, c) ∈ windows3 (padded w) := by
    rwa [scanTrigrams_eq_windows3 w hne] at ht
  have hmem := mem_windows2_of_mem_windows3 (padded w) a b c htw
  have hd := digramsList_eq_windows2 w
  exact ⟨buildDi_pos corpus w (a, b) hw (hd ▸ hmem.1),
    buildDi_pos corpus w (b, c) hw (hd ▸ hmem.2),
    buildTri_pos corpus w (a, b, c) hw ht⟩

/-- C1: the claim says a word of length L yields the L + 1 trigrams
starting with (start, start, c0), a one-character word yielding 2. The
code emits only L trigrams, never (start, start, c0): the primed window
is shifted before the first emission, so a one-character word yields the
single trigram (start, c, end). This counterexample evaluates scanTrigrams
on the one-character word a. -/
theorem typo_C1_cex :
    scanTrigrams ['a'] = [(marker, 'a', marker)] ∧
      (scanTrigrams ['a']).length = 1 ∧
      scanTrigrams ['a'] ≠ [(marker, marker, 'a'), (marker, 'a', marker)] := by
  refine ⟨by decide, by decide, by decide⟩

/-- C1 (amended): for every nonempty word, the trigram sequence generated
(identically during accumulation and scoring, both call scanTrigrams) is
exactly the consecutive-triple list of the word padded with one boundary
marker per side: (start, c0, c1), (c0, c1, c2), ..., (c(L-2), c(L-1), end),
which is L trigrams for a word of length L; a one-character word yields
the single trigram (start, c, end). -/
theorem typo_C1 (w : List Char) (h : w ≠ []) :
    scanTrigrams w = windows3 (padded w) ∧
      (scanTrigrams w).length = w.length :=
  ⟨scanTrigrams_eq_windows3 w h, scanTrigrams_length w h⟩

theorem typo_C1_witness :
    (['o', 'n', 'c', 'e'] : List Char) ≠ [] ∧
      (scanTrigrams ['o', 'n', 'c', 'e']
          = windows3 (padded ['o', 'n', 'c', 'e']) ∧
        (scanTrigrams ['o', 'n', 'c', 'e']).length
          = (['o', 'n', 'c', 'e'] : List Char).length) :=
  ⟨by decide, typo_C1 ['o', 'n', 'c', 'e'] (by decide)⟩

/-- C5: for every word (of any length L, including the empty word), the
digram emission sequence is exactly (start, c0), (c0, c1), ...,
(c(L-1), end), there are exactly L + 1 of them, and accumulating the word
increments each digram count by exactly its multiplicity in that
sequence. -/
theorem typo_C5 (w : List Char) :
    digramsList w = windows2 (padded w) ∧
      (digramsList w).length = w.length + 1 ∧
      ∀ (m : Digram → Nat) (d : Digram),
        addDigrams m w d = m d + (digramsList w).count d :=
  ⟨digramsList_eq_windows2 w, digramsList_length w,
    fun m d => foldl_bump_apply_di (digramsList w) m d⟩

/-- C6: the accumulation pass of stats() processes every word of the
corpus: each global digram and trigram count equals the total number of
emissions of that key over all corpus words, known words included (the
tables take no known-word set at all), with no word skipped. -/
theorem typo_C6 (corpus : List (List Char)) (d : Digram) (t : Trigram) :
    buildDi corpus d
        = (corpus.map (fun w => (digramsList w).count d)).sum ∧
      buildTri corpus t
        = (corpus.map (fun w => (scanTrigrams w).count t)).sum :=
  ⟨buildDi_apply corpus d, buildTri_apply corpus t⟩

/-- C10: for every trigram generated from a nonempty corpus word during
scoring, the global counts of both digram projections and of the trigram
itself are at least 1, so every leave-one-out value is at least 0, the
logarithm is only applied to strictly positive arguments, and triScore
never returns NaN (modelled: never returns none). -/
theorem typo_C10 (corpus : List (List Char)) (w : List Char) (t : Trigram)
    (hw : w ∈ corpus) (hne : w ≠ []) (ht : t ∈ scanTrigrams w) :
    1 ≤ buildDi corpus (t.1, t.2.1) ∧ 1 ≤ buildDi corpus (t.2.1, t.2.2) ∧
      1 ≤ buildTri corpus t ∧
      triScore (buildDi corpus) (buildTri corpus) t ≠ none := by
  obtain ⟨h1, h2, h3⟩ := tri_counts_pos corpus w t hw hne ht
  refine ⟨h1, h2, h3, ?_⟩
  unfold triScore
  by_cases hz : nxy (buildDi corpus) t = 0 ∨ nyz (buildDi corpus) t = 0 ∨
      nxyz (buildTri corpus) t = 0
  · rw [if_pos hz]
    simp
  · rw [if_neg hz]
    have hn : ¬(nxy (buildDi corpus) t < 0 ∨ nyz (buildDi corpus) t < 0 ∨
        nxyz (buildTri corpus) t < 0) := by
      simp only [nxy, nyz, nxyz]
      push_neg
      exact ⟨by omega, by omega, by omega⟩
    rw [if_neg hn]
    simp

theorem typo_C10_witness :
    1 ≤ buildDi [['a', 'b']] ((marker, 'a', 'b').1, (marker, 'a', 'b').2.1) ∧
      1 ≤ buildDi [['a', 'b']]
        ((marker, 'a', 'b').2.1, (marker, 'a', 'b').2.2) ∧
      1 ≤ buildTri [['a', 'b']] (marker, 'a', 'b') ∧
      triScore (buildDi [['a', 'b']]) (buildTri [['a', 'b']])
        (marker, 'a', 'b') ≠ none :=
  typo_C10 [['a', 'b']] ['a', 'b'] (marker, 'a', 'b')
    (by decide) (by decide) (by decide)

/-- C3: for each trigram of a scored corpus word, with nxy, nyz, nxyz the
global digram and trigram counts each reduced by one, the trigram index is
0 when any of the three is zero, and 0.5*(ln nxy + ln nyz) - ln nxyz
otherwise. -/
theorem typo_C3 (corpus : List (List Char)) (w : List Char) (t : Trigram)
    (hw : w ∈ corpus) (hne : w ≠ []) (ht : t ∈ scanTrigrams w) :
    triScore (buildDi corpus) (buildTri corpus) t =
      if nxy (buildDi corpus) t = 0 ∨ nyz (buildDi corpus) t = 0 ∨
          nxyz (buildTri corpus) t = 0
      then some 0
      else some (0.5 * (Real.log (nxy (buildDi corpus) t)
          + Real.log (nyz (buildDi corpus) t))
          - Real.log (nxyz (buildTri corpus) t)) := by
  obtain ⟨h1, h2, h3⟩ := tri_counts_pos corpus w t hw hne ht
  by_cases hz : nxy (buildDi corpus) t = 0 ∨ nyz (buildDi corpus) t = 0 ∨
      nxyz (buildTri corpus) t = 0
  · unfold triScore
    rw [if_pos hz, if_pos hz]
  · unfold triScore
    have hn : ¬(nxy (buildDi corpus) t < 0 ∨ nyz (buildDi corpus) t < 0 ∨
        nxyz (buildTri corpus) t < 0) := by
      simp only [nxy, nyz, nxyz]
      push_neg
      exact ⟨by omega, by omega, by omega⟩
    rw [if_neg hz, if_neg hn, if_neg hz]

theorem typo_C3_witness :
    triScore (buildDi [['a', 'b']]) (buildTri [['a', 'b']]) (marker, 'a', 'b')
      = if nxy (buildDi [['a', 'b']]) (marker, 'a', 'b') = 0 ∨
            nyz (buildDi [['a', 'b']]) (marker, 'a', 'b') = 0 ∨
            nxyz (buildTri [['a', 'b']]) (marker, 'a', 'b') = 0
        then some 0
        else some (0.5 * (Real.log (nxy (buildDi [['a', 'b']]) (marker, 'a', 'b'))
            + Real.log (nyz (buildDi [['a', 'b']]) (marker, 'a', 'b')))
            - Real.log (nxyz (buildTri [['a', 'b']]) (marker, 'a', 'b'))) :=
  typo_C3 [['a', 'b']] ['a', 'b'] (marker, 'a', 'b')
    (by decide) (by decide) (by decide)

end Typo

namespace Typo

/-- In the one-word corpus consisting of ab alone, every trigram of ab
occurs exactly once, so every leave-one-out trigram count is zero and
every trigram index is zero. -/
theorem ab_all_zero :
    ∀ t ∈ scanTrigrams ['a', 'b'],
      triScore (buildDi [['a', 'b']]) (buildTri [['a', 'b']]) t = some 0 := by
  intro t ht
  have hsc : scanTrigrams ['a', 'b'] = [(marker, 'a', 'b'), ('a', 'b', marker)] := by
    decide
  rw [hsc] at ht
  rcases List.mem_cons.mp ht with h | h
  · subst h
    have hb : buildTri [['a', 'b']] (marker, 'a', 'b') = 1 := by decide
    have hz : nxyz (buildTri [['a', 'b']]) (marker, 'a', 'b') = 0 := by
      simp [nxyz, hb]
    unfold triScore
    rw [if_pos (Or.inr (Or.inr hz))]
  · have h2 : t = ('a', 'b', marker) := by simpa using h
    subst h2
    have hb : buildTri [['a', 'b']] ('a', 'b', marker) = 1 := by decide
    have hz : nxyz (buildTri [['a', 'b']]) ('a', 'b', marker) = 0 := by
      simp [nxyz, hb]
    unfold triScore
    rw [if_pos (Or.inr (Or.inr hz))]

/-- C2: the claim says that when every trigram index of a word is 0 the
score is 0, computed without the division, and nothing non-finite reaches
the ranking. The code has no such guard: it always divides, and for the
word ab in the one-word corpus made of ab the division is 10 / sqrt 0,
whose float value is +Inf (modelled none), not 0. -/
theorem typo_C2_cex :
    score (buildDi [['a', 'b']]) (buildTri [['a', 'b']]) ['a', 'b'] = none ∧
      (none : Option ℝ) ≠ some (0 : ℝ) :=
  ⟨score_none_of_all_zero (buildDi [['a', 'b']]) (buildTri [['a', 'b']])
    ['a', 'b'] ab_all_zero, by simp⟩

/-- C2 (amended): for any tables and word all of whose trigram indices
are 0, the code performs the division anyway: the sum of squares is 0 and
the score expression 10 / sqrt(0 / n) evaluates to the non-finite float
+Inf (modelled none), not to 0; the guard described by the claim does not
exist in the code. -/
theorem typo_C2 (di : Digram → Nat) (tri : Trigram → Nat) (w : List Char)
    (h : ∀ t ∈ scanTrigrams w, triScore di tri t = some 0) :
    score di tri w = none :=
  score_none_of_all_zero di tri w h

theorem typo_C2_witness :
    score (buildDi [['a', 'b']]) (buildTri [['a', 'b']]) ['a', 'b'] = none :=
  typo_C2 (buildDi [['a', 'b']]) (buildTri [['a', 'b']]) ['a', 'b'] ab_all_zero

/-- C4: the claim says a word whose text is in the known-word set by exact
match or by lower-cased match is never scored and never printed. The code
tests only the lower-cased form: a capitalized stoplist entry is missed.
Here the word Foo, present verbatim in the known set, is printed by the
spell pipeline (its lower-cased form foo is not in the set). -/
theorem typo_C4_cex :
    (⟨['F', 'o', 'o'], "f", 1, 1, 50⟩ : Word).text ∈ [['F', 'o', 'o']] ∧
      spellPrinted [['F', 'o', 'o']] 50 10
          [⟨['F', 'o', 'o'], "f", 1, 1, 50⟩]
        = [⟨['F', 'o', 'o'], "f", 1, 1, 50⟩] := by
  refine ⟨by decide, ?_⟩
  unfold spellPrinted uniqWords sortByScore sortByText
  rw [List.mergeSort_singleton]
  rw [show dedupAux [['F', 'o', 'o']] [' ']
      [(⟨['F', 'o', 'o'], "f", 1, 1, 50⟩ : Word)]
      = [(⟨['F', 'o', 'o'], "f", 1, 1, 50⟩ : Word)] from by decide]
  rw [List.mergeSort_singleton]
  decide

/-- C4 (amended): a word whose lower-cased form is in the known-word set
is never assigned a score by the scoring pass of stats (the word is left
unchanged) and never appears in the printed typo report, regardless of
its letter-sequence rarity. -/
theorem typo_C4 (known : List (List Char)) (scoreOf : List Char → ℤ)
    (nTypos threshold : ℤ) (ws : List Word) (w : Word)
    (hk : known.contains (lowerOf w.text) = true) :
    statsOne known scoreOf w = w ∧
      w ∉ spellPrinted known nTypos threshold ws := by
  constructor
  · unfold statsOne
    rw [if_pos hk]
  · intro hmem
    have hsub : (spellPrinted known nTypos threshold ws).Sublist
        (sortByScore (uniqWords known ws)) := by
      unfold spellPrinted
      exact (List.takeWhile_sublist _).trans (List.take_sublist _ _)
    have h1 : w ∈ sortByScore (uniqWords known ws) := hsub.subset hmem
    have h2 : w ∈ uniqWords known ws := (sortByScore_perm _).mem_iff.mp h1
    have h3 : known.contains (lowerOf w.text) = false :=
      dedupAux_not_known known (sortByText ws) [' '] w h2
    rw [hk] at h3
    exact Bool.noConfusion h3

theorem typo_C4_witness :
    statsOne [['t', 'h', 'e']] (fun _ => 42)
        (⟨['T', 'h', 'e'], "f", 1, 1, 0⟩ : Word)
        = (⟨['T', 'h', 'e'], "f", 1, 1, 0⟩ : Word) ∧
      (⟨['T', 'h', 'e'], "f", 1, 1, 0⟩ : Word) ∉
        spellPrinted [['t', 'h', 'e']] 50 10
          [⟨['T', 'h', 'e'], "f", 1, 1, 0⟩] :=
  typo_C4 [['t', 'h', 'e']] (fun _ => 42) 50 10
    [⟨['T', 'h', 'e'], "f", 1, 1, 0⟩]
    (⟨['T', 'h', 'e'], "f", 1, 1, 0⟩ : Word) (by decide)

/-- C7: with repeat reporting enabled, a word is reported exactly when its
lower-cased form equals the lower-cased form of the immediately preceding
word (the first word is never reported), provided every word is nonempty,
as the tokenizer guarantees. -/
theorem typo_C7 (ws : List Word) (h : ∀ w ∈ ws, w.text ≠ []) :
    repeatsList ws =
      (ws.zip ws.tail).filterMap
        (fun pc => if lowerOf pc.2.text = lowerOf pc.1.text
          then some pc.2 else none) :=
  repeats_characterization ws h

theorem typo_C7_witness :
    (∀ w ∈ ([⟨['T', 'h', 'e'], "f", 1, 1, 0⟩, ⟨['t', 'h', 'e'], "f", 1, 5, 0⟩,
        ⟨['d', 'o', 'g'], "f", 1, 9, 0⟩] : List Word), w.text ≠ []) ∧
      repeatsList [⟨['T', 'h', 'e'], "f", 1, 1, 0⟩,
          ⟨['t', 'h', 'e'], "f", 1, 5, 0⟩, ⟨['d', 'o', 'g'], "f", 1, 9, 0⟩]
        = [⟨['t', 'h', 'e'], "f", 1, 5, 0⟩] :=
  ⟨by decide, by
    rw [typo_C7 [⟨['T', 'h', 'e'], "f", 1, 1, 0⟩, ⟨['t', 'h', 'e'], "f", 1, 5, 0⟩,
      ⟨['d', 'o', 'g'], "f", 1, 9, 0⟩] (by decide)]
    decide⟩

/-- C8: the printed typo report has at most nTypos lines, every printed
score is at least the threshold, and the lines are in descending score
order; when fewer words clear the threshold, fewer lines are printed (the
list simply ends sooner). -/
theorem typo_C8 (known : List (List Char)) (nTypos threshold : ℤ)
    (ws : List Word) :
    (spellPrinted known nTypos threshold ws).length ≤ nTypos.toNat ∧
      (∀ w ∈ spellPrinted known nTypos threshold ws, threshold ≤ w.score) ∧
      (spellPrinted known nTypos threshold ws).Pairwise
        (fun a b => b.score ≤ a.score) := by
  refine ⟨?_, ?_, ?_⟩
  · unfold spellPrinted
    have h1 := (@List.takeWhile_sublist Word
      (List.take nTypos.toNat (sortByScore (uniqWords known ws)))
      (fun w : Word => decide (threshold ≤ w.score))).length_le
    have h2 : (List.take nTypos.toNat
        (sortByScore (uniqWords known ws))).length ≤ nTypos.toNat := by
      rw [List.length_take]
      exact inf_le_left
    omega
  · intro w hw
    unfold spellPrinted at hw
    have := List.mem_takeWhile_imp hw
    rwa [decide_eq_true_eq] at this
  · unfold spellPrinted
    exact List.Pairwise.sublist
      ((List.takeWhile_sublist _).trans (List.take_sublist _ _))
      (sortByScore_sorted (uniqWords known ws))

/-- C9: before ranking, the word list is sorted by original text and
deduplicated: the kept list has pairwise distinct texts; every kept word
has a lower-cased form outside the known set; every input word that is
not known (and whose text is not the one-space string used to prime the
loop) keeps exactly one representative of its text; and the final ranked
list, a permutation of the kept list, still has pairwise distinct
texts. -/
theorem typo_C9 (known : List (List Char)) (ws : List Word) :
    ((uniqWords known ws).map (fun w => w.text)).Nodup ∧
      (∀ u ∈ uniqWords known ws,
        known.contains (lowerOf u.text) = false) ∧
      (∀ w ∈ ws, known.contains (lowerOf w.text) = false →
        w.text ≠ [' '] → ∃ u ∈ uniqWords known ws, u.text = w.text) ∧
      ((sortByScore (uniqWords known ws)).map (fun w => w.text)).Nodup := by
  have hnd : ((uniqWords known ws).map (fun w => w.text)).Nodup := by
    have h := dedupAux_nodup known (sortByText ws) [' '] (sortByText_sorted ws)
    exact h.imp (fun hab => strLt_ne _ _ hab)
  refine ⟨hnd, ?_, ?_, ?_⟩
  · intro u hu
    exact dedupAux_not_known known (sortByText ws) [' '] u hu
  · intro w hw hnk htext
    have hmem : w ∈ sortByText ws := (sortByText_perm ws).mem_iff.mpr hw
    rcases dedupAux_complete known (sortByText ws) [' '] w hmem hnk with
      hsp | hex
    · exact absurd hsp htext
    · exact hex
  · have hperm : ((sortByScore (uniqWords known ws)).map
        (fun w => w.text)).Perm ((uniqWords known ws).map (fun w => w.text)) :=
      (sortByScore_perm (uniqWords known ws)).map _
    exact hperm.nodup_iff.mpr hnd

theorem typo_C9_witness :
    ∃ u ∈ uniqWords [['t', 'h', 'e']]
        [⟨['C', 'a', 't'], "f", 1, 1, 0⟩, ⟨['C', 'a', 't'], "f", 2, 1, 0⟩],
      u.text = (⟨['C', 'a', 't'], "f", 1, 1, 0⟩ : Word).text :=
  (typo_C9 [['t', 'h', 'e']]
      [⟨['C', 'a', 't'], "f", 1, 1, 0⟩, ⟨['C', 'a', 't'], "f", 2, 1, 0⟩]).2.2.1
    (⟨['C', 'a', 't'], "f", 1, 1, 0⟩ : Word)
    (by decide) (by decide) (by decide)

end Typo
